import Mathlib

/-
Verification of the local-field algebra of the su2higgs lattice code
(src/su2u1.c, src/measure.c, src/magfield.c), shallowly embedded over the
real numbers.  The embedding corresponds to the build configuration with
the TRIPLET flag set and the HIGGS / HIGGS2 / U1 / SINGLET flags unset
(the configuration in which magfield.c is compiled at all).

SU(2) links are 4 real components (double[4] in C, here Fin 4 → ℝ),
adjoint triplets are 3 components, and the general complex 2×2 matrices
of the Abelian projection are 8 components (real/imaginary pairs).
C doubles are modelled as exact reals.
-/

noncomputable section

open Matrix ComplexConjugate

/-- Lattice geometry: dimension, number of sites, and the neighbor tables
next[i][dir] / prev[i][dir] (struct lattice in su2.h; sites indexed 0..vol-1). -/
structure lattice where
  dim : ℕ
  vol : ℕ
  next : ℕ → ℕ → ℕ
  prev : ℕ → ℕ → ℕ

/-- Field configuration: su2link[i][dir][0..3] and su2triplet[i][0..2]
(struct fields in su2.h, TRIPLET build). -/
structure fields where
  su2link : ℕ → ℕ → Fin 4 → ℝ
  su2triplet : ℕ → Fin 3 → ℝ

/-- Action parameters used by the TRIPLET build (struct params in su2.h). -/
structure params where
  betasu2 : ℝ
  msq_triplet : ℝ
  b4 : ℝ

/-- The identity SU(2) link (1,0,0,0). -/
def idLink : Fin 4 → ℝ := fun k =>
  match k with
  | 0 => 1
  | 1 => 0
  | 2 => 0
  | 3 => 0

/-- su2sqr in su2u1.c: determinant / norm of a matrix in the SU(2)
parametrization, u0^2 + u1^2 + u2^2 + u3^2. -/
def su2sqr (u : Fin 4 → ℝ) : ℝ :=
  u 0 * u 0 + u 1 * u 1 + u 2 * u 2 + u 3 * u 3

/-- su2rot in su2u1.c: U1 <- U1.U2 in the 4-real SU(2) parametrization;
here the updated first operand is returned. -/
def su2rot (u1 u2 : Fin 4 → ℝ) : Fin 4 → ℝ := fun k =>
  match k with
  | 0 => u1 0 * u2 0 - u1 1 * u2 1 - u1 2 * u2 2 - u1 3 * u2 3
  | 1 => u1 1 * u2 0 + u1 0 * u2 1 + u1 3 * u2 2 - u1 2 * u2 3
  | 2 => u1 2 * u2 0 - u1 3 * u2 1 + u1 0 * u2 2 + u1 1 * u2 3
  | 3 => u1 3 * u2 0 + u1 2 * u2 1 - u1 1 * u2 2 + u1 0 * u2 3

/-- su2trace4 in su2u1.c: Re Tr U1.U2.U3^+.U4^+ as a closed-form polynomial. -/
def su2trace4 (u1 u2 u3 u4 : Fin 4 → ℝ) : ℝ :=
  2.0 * (u1 0*u2 0*u3 0*u4 0 - u1 1*u2 1*u3 0*u4 0 - u1 2*u2 2*u3 0*u4 0 -
   u1 3*u2 3*u3 0*u4 0 + u1 1*u2 0*u3 1*u4 0 + u1 0*u2 1*u3 1*u4 0 +
   u1 3*u2 2*u3 1*u4 0 - u1 2*u2 3*u3 1*u4 0 + u1 2*u2 0*u3 2*u4 0 -
   u1 3*u2 1*u3 2*u4 0 + u1 0*u2 2*u3 2*u4 0 + u1 1*u2 3*u3 2*u4 0 +
   u1 3*u2 0*u3 3*u4 0 + u1 2*u2 1*u3 3*u4 0 - u1 1*u2 2*u3 3*u4 0 +
   u1 0*u2 3*u3 3*u4 0 + u1 1*u2 0*u3 0*u4 1 + u1 0*u2 1*u3 0*u4 1 +
   u1 3*u2 2*u3 0*u4 1 - u1 2*u2 3*u3 0*u4 1 - u1 0*u2 0*u3 1*u4 1 +
   u1 1*u2 1*u3 1*u4 1 + u1 2*u2 2*u3 1*u4 1 + u1 3*u2 3*u3 1*u4 1 -
   u1 3*u2 0*u3 2*u4 1 - u1 2*u2 1*u3 2*u4 1 + u1 1*u2 2*u3 2*u4 1 -
   u1 0*u2 3*u3 2*u4 1 + u1 2*u2 0*u3 3*u4 1 - u1 3*u2 1*u3 3*u4 1 +
   u1 0*u2 2*u3 3*u4 1 + u1 1*u2 3*u3 3*u4 1 + u1 2*u2 0*u3 0*u4 2 -
   u1 3*u2 1*u3 0*u4 2 + u1 0*u2 2*u3 0*u4 2 + u1 1*u2 3*u3 0*u4 2 +
   u1 3*u2 0*u3 1*u4 2 + u1 2*u2 1*u3 1*u4 2 - u1 1*u2 2*u3 1*u4 2 +
   u1 0*u2 3*u3 1*u4 2 - u1 0*u2 0*u3 2*u4 2 + u1 1*u2 1*u3 2*u4 2 +
   u1 2*u2 2*u3 2*u4 2 + u1 3*u2 3*u3 2*u4 2 - u1 1*u2 0*u3 3*u4 2 -
   u1 0*u2 1*u3 3*u4 2 - u1 3*u2 2*u3 3*u4 2 + u1 2*u2 3*u3 3*u4 2 +
   u1 3*u2 0*u3 0*u4 3 + u1 2*u2 1*u3 0*u4 3 - u1 1*u2 2*u3 0*u4 3 +
   u1 0*u2 3*u3 0*u4 3 - u1 2*u2 0*u3 1*u4 3 + u1 3*u2 1*u3 1*u4 3 -
   u1 0*u2 2*u3 1*u4 3 - u1 1*u2 3*u3 1*u4 3 + u1 1*u2 0*u3 2*u4 3 +
   u1 0*u2 1*u3 2*u4 3 + u1 3*u2 2*u3 2*u4 3 - u1 2*u2 3*u3 2*u4 3 -
   u1 0*u2 0*u3 3*u4 3 + u1 1*u2 1*u3 3*u4 3 + u1 2*u2 2*u3 3*u4 3 +
   u1 3*u2 3*u3 3*u4 3)

/-- su2ptrace in su2u1.c: plaquette trace in the (dir1, dir2) plane at site i. -/
def su2ptrace (l : lattice) (f : fields) (i : ℕ) (dir1 dir2 : ℕ) : ℝ :=
  su2trace4 (f.su2link i dir1) (f.su2link (l.next i dir1) dir2)
    (f.su2link (l.next i dir2) dir1) (f.su2link i dir2)

/-- Componentwise conjugation used inside su2plaquette and clover_su2:
negate components 1..3 of an SU(2) link. -/
def conjLink (u : Fin 4 → ℝ) : Fin 4 → ℝ := fun k =>
  match k with
  | 0 => u 0
  | 1 => -(1.0) * u 1
  | 2 => -(1.0) * u 2
  | 3 => -(1.0) * u 3

/-- su2plaquette in su2u1.c: the SU(2) plaquette matrix, built by
conjugating the two reversed legs and multiplying sequentially with su2rot
(u3 <- u3.u4; u2 <- u2.u3; u1 <- u1.u2). -/
def su2plaquette (l : lattice) (f : fields) (i : ℕ) (dir1 dir2 : ℕ) : Fin 4 → ℝ :=
  let u1 := f.su2link i dir1
  let u2 := f.su2link (l.next i dir1) dir2
  let u3 := conjLink (f.su2link (l.next i dir2) dir1)
  let u4 := conjLink (f.su2link i dir2)
  su2rot u1 (su2rot u2 (su2rot u3 u4))

/-- su2staple_counterwise in su2u1.c: untraced staple U1 U2^+ U3^+. -/
def su2staple_counterwise (u1 u2 u3 : Fin 4 → ℝ) : Fin 4 → ℝ := fun k =>
  match k with
  | 0 => u1 0*u2 0*u3 0 + u1 1*u2 1*u3 0 + u1 2*u2 2*u3 0 + u1 3*u2 3*u3 0 +
   u1 1*u2 0*u3 1 - u1 0*u2 1*u3 1 - u1 3*u2 2*u3 1 +
   u1 2*u2 3*u3 1 + u1 2*u2 0*u3 2 + u1 3*u2 1*u3 2 -
   u1 0*u2 2*u3 2 - u1 1*u2 3*u3 2 + u1 3*u2 0*u3 3 -
   u1 2*u2 1*u3 3 + u1 1*u2 2*u3 3 - u1 0*u2 3*u3 3
  | 1 => u1 1*u2 0*u3 0 - u1 0*u2 1*u3 0 - u1 3*u2 2*u3 0 + u1 2*u2 3*u3 0 -
   u1 0*u2 0*u3 1 - u1 1*u2 1*u3 1 - u1 2*u2 2*u3 1 -
   u1 3*u2 3*u3 1 - u1 3*u2 0*u3 2 + u1 2*u2 1*u3 2 -
   u1 1*u2 2*u3 2 + u1 0*u2 3*u3 2 + u1 2*u2 0*u3 3 +
   u1 3*u2 1*u3 3 - u1 0*u2 2*u3 3 - u1 1*u2 3*u3 3
  | 2 => u1 2*u2 0*u3 0 + u1 3*u2 1*u3 0 - u1 0*u2 2*u3 0 - u1 1*u2 3*u3 0 +
   u1 3*u2 0*u3 1 - u1 2*u2 1*u3 1 + u1 1*u2 2*u3 1 -
   u1 0*u2 3*u3 1 - u1 0*u2 0*u3 2 - u1 1*u2 1*u3 2 -
   u1 2*u2 2*u3 2 - u1 3*u2 3*u3 2 - u1 1*u2 0*u3 3 +
   u1 0*u2 1*u3 3 + u1 3*u2 2*u3 3 - u1 2*u2 3*u3 3
  | 3 => u1 3*u2 0*u3 0 - u1 2*u2 1*u3 0 + u1 1*u2 2*u3 0 - u1 0*u2 3*u3 0 -
   u1 2*u2 0*u3 1 - u1 3*u2 1*u3 1 + u1 0*u2 2*u3 1 +
   u1 1*u2 3*u3 1 + u1 1*u2 0*u3 2 - u1 0*u2 1*u3 2 -
   u1 3*u2 2*u3 2 + u1 2*u2 3*u3 2 - u1 0*u2 0*u3 3 -
   u1 1*u2 1*u3 3 - u1 2*u2 2*u3 3 - u1 3*u2 3*u3 3

/-- su2staple_clockwise in su2u1.c: untraced staple U1^+ U2^+ U3. -/
def su2staple_clockwise (u1 u2 u3 : Fin 4 → ℝ) : Fin 4 → ℝ := fun k =>
  match k with
  | 0 => u1 0*u2 0*u3 0 - u1 1*u2 1*u3 0 - u1 2*u2 2*u3 0 - u1 3*u2 3*u3 0 +
   u1 1*u2 0*u3 1 + u1 0*u2 1*u3 1 - u1 3*u2 2*u3 1 +
   u1 2*u2 3*u3 1 + u1 2*u2 0*u3 2 + u1 3*u2 1*u3 2 +
   u1 0*u2 2*u3 2 - u1 1*u2 3*u3 2 + u1 3*u2 0*u3 3 -
   u1 2*u2 1*u3 3 + u1 1*u2 2*u3 3 + u1 0*u2 3*u3 3
  | 1 => -(u1 1*u2 0*u3 0) - u1 0*u2 1*u3 0 + u1 3*u2 2*u3 0 -
   u1 2*u2 3*u3 0 + u1 0*u2 0*u3 1 - u1 1*u2 1*u3 1 -
   u1 2*u2 2*u3 1 - u1 3*u2 3*u3 1 - u1 3*u2 0*u3 2 +
   u1 2*u2 1*u3 2 - u1 1*u2 2*u3 2 - u1 0*u2 3*u3 2 +
   u1 2*u2 0*u3 3 + u1 3*u2 1*u3 3 + u1 0*u2 2*u3 3 - u1 1*u2 3*u3 3
  | 2 => -(u1 2*u2 0*u3 0) - u1 3*u2 1*u3 0 - u1 0*u2 2*u3 0 +
   u1 1*u2 3*u3 0 + u1 3*u2 0*u3 1 - u1 2*u2 1*u3 1 +
   u1 1*u2 2*u3 1 + u1 0*u2 3*u3 1 + u1 0*u2 0*u3 2 -
   u1 1*u2 1*u3 2 - u1 2*u2 2*u3 2 - u1 3*u2 3*u3 2 -
   u1 1*u2 0*u3 3 - u1 0*u2 1*u3 3 + u1 3*u2 2*u3 3 - u1 2*u2 3*u3 3
  | 3 => -(u1 3*u2 0*u3 0) + u1 2*u2 1*u3 0 - u1 1*u2 2*u3 0 -
   u1 0*u2 3*u3 0 - u1 2*u2 0*u3 1 - u1 3*u2 1*u3 1 -
   u1 0*u2 2*u3 1 + u1 1*u2 3*u3 1 + u1 1*u2 0*u3 2 +
   u1 0*u2 1*u3 2 - u1 3*u2 2*u3 2 + u1 2*u2 3*u3 2 +
   u1 0*u2 0*u3 3 - u1 1*u2 1*u3 3 - u1 2*u2 2*u3 3 - u1 3*u2 3*u3 3

/-- su2staple_wilson in su2u1.c: sum over directions j ≠ dir of the upper
(counterwise) and lower (clockwise) staples of the link (i, dir). -/
def su2staple_wilson (l : lattice) (f : fields) (i : ℕ) (dir : ℕ) : Fin 4 → ℝ :=
  fun k =>
    ∑ j ∈ Finset.range l.dim,
      if j ≠ dir then
        su2staple_counterwise (f.su2link (l.next i dir) j)
          (f.su2link (l.next i j) dir) (f.su2link i j) k
        + su2staple_clockwise (f.su2link (l.prev (l.next i dir) j) j)
          (f.su2link (l.prev i j) dir) (f.su2link (l.prev i j) j) k
      else 0

/-- local_su2wilson in su2u1.c: Wilson action at site i,
beta * sum over dir2 < dir1 of (1 - 0.5 * plaquette trace). -/
def local_su2wilson (l : lattice) (f : fields) (p : params) (i : ℕ) : ℝ :=
  p.betasu2 * ∑ dir1 ∈ Finset.range l.dim, ∑ dir2 ∈ Finset.range dir1,
    (1.0 - 0.5 * su2ptrace l f i dir2 dir1)

/-- tripletsq in su2u1.c: Tr A^2 for an adjoint field, 0.5 * sum of squares. -/
def tripletsq (a : Fin 3 → ℝ) : ℝ :=
  0.5 * (a 0 * a 0 + a 1 * a 1 + a 2 * a 2)

/-- hopping_trace_triplet in su2u1.c: Tr A1 U A2 U^+ as a closed-form polynomial. -/
def hopping_trace_triplet (a1 : Fin 3 → ℝ) (u : Fin 4 → ℝ) (a2 : Fin 3 → ℝ) : ℝ :=
  0.5 * ( a1 0*a2 0*(u 0*u 0) + a1 1*a2 1*(u 0*u 0) + a1 2*a2 2*(u 0*u 0) -
   2.0*a1 2*a2 1*u 0*u 1 + 2.0*a1 1*a2 2*u 0*u 1 + a1 0*a2 0*(u 1*u 1) -
   a1 1*a2 1*(u 1*u 1) - a1 2*a2 2*(u 1*u 1) + 2.0*a1 2*a2 0*u 0*u 2 -
   2.0*a1 0*a2 2*u 0*u 2 + 2.0*a1 1*a2 0*u 1*u 2 + 2*a1 0*a2 1*u 1*u 2 -
   a1 0*a2 0*(u 2*u 2) + a1 1*a2 1*(u 2*u 2) - a1 2*a2 2*(u 2*u 2) -
   2.0*a1 1*a2 0*u 0*u 3 + 2.0*a1 0*a2 1*u 0*u 3 + 2.0*a1 2*a2 0*u 1*u 3 +
   2.0*a1 0*a2 2*u 1*u 3 + 2.0*a1 2*a2 1*u 2*u 3 + 2.0*a1 1*a2 2*u 2*u 3 -
   a1 0*a2 0*(u 3*u 3) - a1 1*a2 1*(u 3*u 3) + a1 2*a2 2*(u 3*u 3) )

/-- hopping_triplet_forward in su2u1.c:
-2 Tr A(x) U_j(x) A(x+j) U_j(x)^+ for j = dir. -/
def hopping_triplet_forward (l : lattice) (f : fields) (_p : params)
    (i : ℕ) (dir : ℕ) : ℝ :=
  -(2.0 * hopping_trace_triplet (f.su2triplet i) (f.su2link i dir)
      (f.su2triplet (l.next i dir)))

/-- hopping_triplet_backward in su2u1.c:
-2 Tr A(x-j) U_j(x-j) A(x) U_j(x-j)^+ for j = dir. -/
def hopping_triplet_backward (l : lattice) (f : fields) (_p : params)
    (i : ℕ) (dir : ℕ) : ℝ :=
  -(2.0 * hopping_trace_triplet (f.su2triplet (l.prev i dir))
      (f.su2link (l.prev i dir) dir) (f.su2triplet i))

/-- covariant_triplet in su2u1.c: forward covariant derivative,
sum over dir of 2 Tr A^2 + hopping_triplet_forward. -/
def covariant_triplet (l : lattice) (f : fields) (p : params) (i : ℕ) : ℝ :=
  ∑ dir ∈ Finset.range l.dim,
    (2.0 * tripletsq (f.su2triplet i) + hopping_triplet_forward l f p i dir)

/-- higgspotential in su2u1.c, TRIPLET build:
msq_triplet * Tr A^2 + b4 * (Tr A^2)^2. -/
def higgspotential (f : fields) (p : params) (i : ℕ) : ℝ :=
  p.msq_triplet * tripletsq (f.su2triplet i)
    + p.b4 * tripletsq (f.su2triplet i) * tripletsq (f.su2triplet i)

/-- localact_su2link in su2u1.c, TRIPLET build: the plaquette terms in the
two plaquettes per plane containing the link (i, dir), times beta, plus the
forward triplet hopping term. -/
def localact_su2link (l : lattice) (f : fields) (p : params) (i : ℕ) (dir : ℕ) : ℝ :=
  p.betasu2 * (∑ dir2 ∈ Finset.range l.dim,
    if dir2 ≠ dir then
      (1.0 - 0.5 * su2ptrace l f i dir dir2)
      + (1.0 - 0.5 * su2ptrace l f (l.prev i dir2) dir dir2)
    else 0)
  + hopping_triplet_forward l f p i dir

/-- localact_triplet in su2u1.c: covariant derivative plus backward hoppings
plus the triplet potential. -/
def localact_triplet (l : lattice) (f : fields) (p : params) (i : ℕ) : ℝ :=
  covariant_triplet l f p i
  + (∑ dir ∈ Finset.range l.dim, hopping_triplet_backward l f p i dir)
  + (p.msq_triplet * tripletsq (f.su2triplet i)
      + p.b4 * tripletsq (f.su2triplet i) * tripletsq (f.su2triplet i))

/-- action_local in measure.c, TRIPLET build: local Wilson action plus the
scalar potential plus the forward triplet covariant derivative; a loop over
all sites gives the total action. -/
def action_local (l : lattice) (f : fields) (p : params) (i : ℕ) : ℝ :=
  local_su2wilson l f p i + higgspotential f p i + covariant_triplet l f p i

/-- matmat in magfield.c: multiply two general complex 2x2 matrices stored
as 8 reals (real/imag pairs), taking the Hermitian conjugate of the second
operand first when dag is set; the updated first operand is returned. -/
def matmat (in1 in2 : Fin 8 → ℝ) (dag : Bool) : Fin 8 → ℝ :=
  let a1 := in1 0
  let b1 := in1 1
  let c1 := in1 2
  let d1 := in1 3
  let e1 := in1 4
  let f1 := in1 5
  let g1 := in1 6
  let h1 := in1 7
  let a2 := in2 0
  let b2 := if dag then -(1.0) * in2 1 else in2 1
  let c2 := if dag then in2 4 else in2 2
  let d2 := if dag then -(1.0) * in2 5 else in2 3
  let e2 := if dag then in2 2 else in2 4
  let f2 := if dag then -(1.0) * in2 3 else in2 5
  let g2 := in2 6
  let h2 := if dag then -(1.0) * in2 7 else in2 7
  fun k =>
    match k with
    | 0 => a1*a2 - b1*b2 + c1*e2 - d1*f2
    | 1 => a2*b1 + a1*b2 + d1*e2 + c1*f2
    | 2 => a1*c2 - b1*d2 + c1*g2 - d1*h2
    | 3 => b1*c2 + a1*d2 + d1*g2 + c1*h2
    | 4 => a2*e1 - b2*f1 + e2*g1 - f2*h1
    | 5 => b2*e1 + a2*f1 + f2*g1 + e2*h1
    | 6 => c2*e1 - d2*f1 + g1*g2 - h1*h2
    | 7 => d2*e1 + c2*f1 + g2*h1 + g1*h2

/-- projector in magfield.c: normalized adjoint field, 2*a_k/|a| in the
stored parametrization. -/
def projector (adjoint : Fin 3 → ℝ) : Fin 3 → ℝ :=
  let a1 := adjoint 0
  let a2 := adjoint 1
  let a3 := adjoint 2
  let modulus := Real.sqrt (a1*a1 + a2*a2 + a3*a3)
  fun k =>
    match k with
    | 0 => 2.0*a1/modulus
    | 1 => 2.0*a2/modulus
    | 2 => 2.0*a3/modulus

/-- project_u1 in magfield.c: the projected "U(1) link" at site i and
direction dir, an 8-real fully complex 2x2 matrix. -/
def project_u1 (l : lattice) (f : fields) (i : ℕ) (dir : ℕ) : Fin 8 → ℝ :=
  let hl := projector (f.su2triplet i)
  let hr := projector (f.su2triplet (l.next i dir))
  let u := f.su2link i dir
  fun k =>
    match k with
    | 0 => (4*u 0 + 2*hl 2*u 0 + hl 0*hr 0*u 0 + hl 1*hr 1*u 0 +
        2*hr 2*u 0 + hl 2*hr 2*u 0 + 2*hl 1*u 1 - 2*hr 1*u 1 -
        hl 2*hr 1*u 1 + hl 1*hr 2*u 1 - 2*hl 0*u 2 + 2*hr 0*u 2 +
        hl 2*hr 0*u 2 - hl 0*hr 2*u 2 - hl 1*hr 0*u 3 +
        hl 0*hr 1*u 3)/16.0
    | 1 => (4*u 0 + 2*hl 2*u 0 + hl 0*hr 0*u 0 + hl 1*hr 1*u 0 +
        2*hr 2*u 0 + hl 2*hr 2*u 0 + 2*hl 1*u 1 - 2*hr 1*u 1 -
        hl 2*hr 1*u 1 + hl 1*hr 2*u 1 - 2*hl 0*u 2 + 2*hr 0*u 2 +
        hl 2*hr 0*u 2 - hl 0*hr 2*u 2 - hl 1*hr 0*u 3 +
        hl 0*hr 1*u 3)/16.0
    | 2 => (2*hl 0*u 0 + 2*hr 0*u 0 + hl 2*hr 0*u 0 - hl 0*hr 2*u 0 +
        hl 1*hr 0*u 1 + hl 0*hr 1*u 1 + 4*u 2 + 2*hl 2*u 2 -
        hl 0*hr 0*u 2 + hl 1*hr 1*u 2 - 2*hr 2*u 2 - hl 2*hr 2*u 2
        - 2*hl 1*u 3 + 2*hr 1*u 3 + hl 2*hr 1*u 3 +
        hl 1*hr 2*u 3)/16.0
    | 3 => (2*hl 0*u 0 + 2*hr 0*u 0 + hl 2*hr 0*u 0 - hl 0*hr 2*u 0 +
        hl 1*hr 0*u 1 + hl 0*hr 1*u 1 + 4*u 2 + 2*hl 2*u 2 -
        hl 0*hr 0*u 2 + hl 1*hr 1*u 2 - 2*hr 2*u 2 - hl 2*hr 2*u 2
        - 2*hl 1*u 3 + 2*hr 1*u 3 + hl 2*hr 1*u 3 +
        hl 1*hr 2*u 3)/16.0
    | 4 => (2*hl 0*u 0 + 2*hr 0*u 0 - hl 2*hr 0*u 0 + hl 0*hr 2*u 0 -
        hl 1*hr 0*u 1 - hl 0*hr 1*u 1 - 4*u 2 + 2*hl 2*u 2 +
        hl 0*hr 0*u 2 - hl 1*hr 1*u 2 - 2*hr 2*u 2 + hl 2*hr 2*u 2
        - 2*hl 1*u 3 + 2*hr 1*u 3 - hl 2*hr 1*u 3 -
        hl 1*hr 2*u 3)/16.0
    | 5 => (2*hl 0*u 0 + 2*hr 0*u 0 - hl 2*hr 0*u 0 + hl 0*hr 2*u 0 -
        hl 1*hr 0*u 1 - hl 0*hr 1*u 1 - 4*u 2 + 2*hl 2*u 2 +
        hl 0*hr 0*u 2 - hl 1*hr 1*u 2 - 2*hr 2*u 2 + hl 2*hr 2*u 2
        - 2*hl 1*u 3 + 2*hr 1*u 3 - hl 2*hr 1*u 3 -
        hl 1*hr 2*u 3)/16.0
    | 6 => (4*u 0 - 2*hl 2*u 0 + hl 0*hr 0*u 0 + hl 1*hr 1*u 0 -
        2*hr 2*u 0 + hl 2*hr 2*u 0 - 2*hl 1*u 1 + 2*hr 1*u 1 -
        hl 2*hr 1*u 1 + hl 1*hr 2*u 1 + 2*hl 0*u 2 - 2*hr 0*u 2 +
        hl 2*hr 0*u 2 - hl 0*hr 2*u 2 - hl 1*hr 0*u 3 +
        hl 0*hr 1*u 3)/16.0
    | 7 => (4*u 0 - 2*hl 2*u 0 + hl 0*hr 0*u 0 + hl 1*hr 1*u 0 -
        2*hr 2*u 0 + hl 2*hr 2*u 0 - 2*hl 1*u 1 + 2*hr 1*u 1 -
        hl 2*hr 1*u 1 + hl 1*hr 2*u 1 + 2*hl 0*u 2 - 2*hr 0*u 2 +
        hl 2*hr 0*u 2 - hl 0*hr 2*u 2 - hl 1*hr 0*u 3 +
        hl 0*hr 1*u 3)/16.0

/-- The C library atan2(y, x): the argument of the complex number x + i y. -/
def atan2 (y x : ℝ) : ℝ := Complex.arg ⟨x, y⟩

/-- The product of the four projected U(1) sub-links around the (dir1, dir2)
plaquette at site i, as computed inside alpha_proj by the matmat chain
(conjugating the two reversed legs). -/
def alphaplaq (l : lattice) (f : fields) (i : ℕ) (dir1 dir2 : ℕ) : Fin 8 → ℝ :=
  let u1 := project_u1 l f i dir1
  let u2 := project_u1 l f (l.next i dir1) dir2
  let u3 := project_u1 l f (l.next i dir2) dir1
  let u4 := project_u1 l f i dir2
  matmat (matmat (matmat u1 u2 false) u3 true) u4 true

/-- alpha_proj in magfield.c: the projected Abelian field strength
alpha_{dir1 dir2}(x_i): the complex phase of the (1,1)+(2,2) trace of the
projected plaquette, scaled by sqrt(betasu2). -/
def alpha_proj (l : lattice) (p : params) (f : fields) (i : ℕ) (dir1 dir2 : ℕ) : ℝ :=
  let m := alphaplaq l f i dir1 dir2
  let alpha := atan2 (m 1 + m 7) (m 0 + m 6)
  Real.sqrt p.betasu2 * alpha

/-- magfield in magfield.c: magnetic field B_dir(x_i), summing alpha_proj
over planes with the three-way Levi-Civita sign rule, looping over d1 < d2
only (the "continue" statements are rendered as zero summands). -/
def magfield (l : lattice) (p : params) (f : fields) (i : ℕ) (dir : ℕ) : ℝ :=
  ∑ d1 ∈ Finset.range l.dim,
    if d1 = dir then 0
    else ∑ d2 ∈ Finset.Ico (d1+1) l.dim,
      if d2 = dir then 0
      else
        if dir < d1 then alpha_proj l p f i d1 d2
        else if dir < d2 then -(alpha_proj l p f i d1 d2)
        else alpha_proj l p f i d1 d2

/-- magcharge_cube in magfield.c: discrete divergence of magfield over the
hypercube at site i. -/
def magcharge_cube (l : lattice) (p : params) (f : fields) (i : ℕ) : ℝ :=
  ∑ dir ∈ Finset.range l.dim,
    (magfield l p f (l.next i dir) dir - magfield l p f i dir)

/-- su2staple_wilson_onedir in su2u1.c: the staple of U_mu(x) in the single
direction nu (identity if mu = nu), optionally Hermitian-conjugating both
the forward and backward staples. -/
def su2staple_wilson_onedir (l : lattice) (f : fields) (i : ℕ) (mu nu : ℕ)
    (dagger : Bool) : Fin 4 → ℝ :=
  if mu = nu then (fun k => if k = 0 then 1.0 else 0.0)
  else
    let up := su2staple_counterwise (f.su2link (l.next i mu) nu)
      (f.su2link (l.next i nu) mu) (f.su2link i nu)
    let lo := su2staple_clockwise (f.su2link (l.prev (l.next i mu) nu) nu)
      (f.su2link (l.prev i nu) mu) (f.su2link (l.prev i nu) nu)
    fun k =>
      (if dagger ∧ k ≠ 0 then -(1.0) * up k else up k)
      + (if dagger ∧ k ≠ 0 then -(1.0) * lo k else lo k)

/-- The number of smearing paths in smear_link: the original link plus a
counterwise and a clockwise staple for every smeared direction j ≠ dir. -/
def smearPaths (l : lattice) (smear_dir : ℕ → Bool) (dir : ℕ) : ℕ :=
  1 + 2 * ((Finset.range l.dim).filter (fun j => j ≠ dir ∧ smear_dir j)).card

/-- smear_link in su2u1.c: blocked link V_dir(x) V_dir(x+dir), where
V_dir(y) is the link plus its one-direction conjugated staples in the
smeared directions, normalized by the path count; the product is finally
reunitarized by dividing by the square root of its determinant. -/
def smear_link (l : lattice) (f : fields) (smear_dir : ℕ → Bool)
    (i : ℕ) (dir : ℕ) : Fin 4 → ℝ :=
  let res0 : Fin 4 → ℝ := fun k =>
    f.su2link i dir k + ∑ j ∈ Finset.range l.dim,
      if j ≠ dir ∧ smear_dir j then su2staple_wilson_onedir l f i dir j true k else 0
  let v20 : Fin 4 → ℝ := fun k =>
    f.su2link (l.next i dir) dir k + ∑ j ∈ Finset.range l.dim,
      if j ≠ dir ∧ smear_dir j then
        su2staple_wilson_onedir l f (l.next i dir) dir j true k
      else 0
  let paths := smearPaths l smear_dir dir
  let res1 : Fin 4 → ℝ := fun k => res0 k / (paths : ℝ)
  let v21 : Fin 4 → ℝ := fun k => v20 k / (paths : ℝ)
  let r := su2rot res1 v21
  let det := Real.sqrt (su2sqr r)
  fun k => r k / det

/-- The forward parallel-transport term U_i(x) Sigma(x+i) U_i^+(x) of
smear_triplet in su2u1.c, componentwise. -/
def smearCovForward (u : Fin 4 → ℝ) (b : Fin 3 → ℝ) : Fin 3 → ℝ := fun k =>
  match k with
  | 0 => b 0*(u 0*u 0) + b 0*(u 1*u 1) - 2*b 2*u 0*u 2
      + 2*b 1*u 1*u 2 - b 0*(u 2*u 2) + 2*b 1*u 0*u 3
      + 2*b 2*u 1*u 3 - b 0*(u 3*u 3)
  | 1 => b 1*(u 0*u 0) + 2*b 2*u 0*u 1 - b 1*(u 1*u 1)
      + 2*b 0*u 1*u 2 + b 1*(u 2*u 2) - 2*b 0*u 0*u 3
      + 2*b 2*u 2*u 3 - b 1*(u 3*u 3)
  | 2 => b 2*(u 0*u 0) - 2*b 1*u 0*u 1 - b 2*(u 1*u 1)
      + 2*b 0*u 0*u 2 - b 2*(u 2*u 2) + 2*b 0*u 1*u 3
      + 2*b 1*u 2*u 3 + b 2*(u 3*u 3)

/-- The backward parallel-transport term U_i^+(x-i) Sigma(x-i) U_i(x-i) of
smear_triplet in su2u1.c, componentwise. -/
def smearCovBackward (u : Fin 4 → ℝ) (b : Fin 3 → ℝ) : Fin 3 → ℝ := fun k =>
  match k with
  | 0 => b 0*(u 0*u 0) + b 0*(u 1*u 1) + 2*b 2*u 0*u 2
      + 2*b 1*u 1*u 2 - b 0*(u 2*u 2) - 2*b 1*u 0*u 3
      + 2*b 2*u 1*u 3 - b 0*(u 3*u 3)
  | 1 => b 1*(u 0*u 0) - 2*b 2*u 0*u 1 - b 1*(u 1*u 1)
      + 2*b 0*u 1*u 2 + b 1*(u 2*u 2) + 2*b 0*u 0*u 3
      + 2*b 2*u 2*u 3 - b 1*(u 3*u 3)
  | 2 => b 2*(u 0*u 0) + 2*b 1*u 0*u 1 - b 2*(u 1*u 1)
      - 2*b 0*u 0*u 2 - b 2*(u 2*u 2) + 2*b 0*u 1*u 3
      + 2*b 1*u 2*u 3 + b 2*(u 3*u 3)

/-- The number of sites involved in smear_triplet: the site itself plus two
nearest neighbors per smeared direction. -/
def smearSites (l : lattice) (smear_dir : ℕ → Bool) : ℕ :=
  1 + 2 * ((Finset.range l.dim).filter (fun d => smear_dir d)).card

/-- smear_triplet in su2u1.c: blocked adjoint field, the site value plus the
forward and backward parallel-transported neighbor values in the smeared
directions, divided by the number of sites involved. -/
def smear_triplet (l : lattice) (f : fields) (smear_dir : ℕ → Bool) (i : ℕ) :
    Fin 3 → ℝ :=
  let cov : Fin 3 → ℝ := fun k =>
    ∑ dir ∈ Finset.range l.dim,
      if smear_dir dir then
        smearCovForward (f.su2link i dir) (f.su2triplet (l.next i dir)) k
        + smearCovBackward (f.su2link (l.prev i dir) dir)
            (f.su2triplet (l.prev i dir)) k
      else 0
  fun k => (f.su2triplet i k + cov k) / (smearSites l smear_dir : ℝ)

/-- Heap model of su2rot in su2u1.c: the memory is a map from addresses to
reals, u1 and u2 are base addresses of 4-element buffers; the four reads of
each operand happen before the four writes to u1[0..3], exactly as in the C
body, and no write to any other address occurs. -/
def su2rotH (h : ℤ → ℝ) (u1 u2 : ℤ) : ℤ → ℝ :=
  let new1 := h u1 * h u2 - h (u1+1) * h (u2+1) - h (u1+2) * h (u2+2) - h (u1+3) * h (u2+3)
  let new2 := h (u1+1) * h u2 + h u1 * h (u2+1) + h (u1+3) * h (u2+2) - h (u1+2) * h (u2+3)
  let new3 := h (u1+2) * h u2 - h (u1+3) * h (u2+1) + h u1 * h (u2+2) + h (u1+1) * h (u2+3)
  let new4 := h (u1+3) * h u2 + h (u1+2) * h (u2+1) - h (u1+1) * h (u2+2) + h u1 * h (u2+3)
  fun a =>
    if a = u1 then new1
    else if a = u1+1 then new2
    else if a = u1+2 then new3
    else if a = u1+3 then new4
    else h a

/-- Heap model of matmat in magfield.c: in1 and in2 are base addresses of
8-element buffers; all reads (a1..h1 from in1, a2..h2 from in2, with the
dag adjustment applied to local copies) happen before the eight writes to
in1[0..7], and no write to any other address occurs. -/
def matmatH (h : ℤ → ℝ) (in1 in2 : ℤ) (dag : Bool) : ℤ → ℝ :=
  let a1 := h in1
  let b1 := h (in1+1)
  let c1 := h (in1+2)
  let d1 := h (in1+3)
  let e1 := h (in1+4)
  let f1 := h (in1+5)
  let g1 := h (in1+6)
  let h1 := h (in1+7)
  let a2 := h in2
  let b2 := if dag then -(1.0) * h (in2+1) else h (in2+1)
  let c2 := if dag then h (in2+4) else h (in2+2)
  let d2 := if dag then -(1.0) * h (in2+5) else h (in2+3)
  let e2 := if dag then h (in2+2) else h (in2+4)
  let f2 := if dag then -(1.0) * h (in2+3) else h (in2+5)
  let g2 := h (in2+6)
  let h2 := if dag then -(1.0) * h (in2+7) else h (in2+7)
  fun a =>
    if a = in1 then a1*a2 - b1*b2 + c1*e2 - d1*f2
    else if a = in1+1 then a2*b1 + a1*b2 + d1*e2 + c1*f2
    else if a = in1+2 then a1*c2 - b1*d2 + c1*g2 - d1*h2
    else if a = in1+3 then b1*c2 + a1*d2 + d1*g2 + c1*h2
    else if a = in1+4 then a2*e1 - b2*f1 + e2*g1 - f2*h1
    else if a = in1+5 then b2*e1 + a2*f1 + f2*g1 + e2*h1
    else if a = in1+6 then c2*e1 - d2*f1 + g1*g2 - h1*h2
    else if a = in1+7 then d2*e1 + c2*f1 + g2*h1 + g1*h2
    else h a

/-- Concrete 2x2 periodic neighbor table in 2 dimensions: site x has
coordinates (x mod 2, x div 2) for x = 0..3; with extent 2 the forward and
backward neighbors coincide. -/
def cnext : ℕ → ℕ → ℕ := fun x d =>
  if d = 0 then (if x = 0 then 1 else if x = 1 then 0 else if x = 2 then 3 else 2)
  else (if x = 0 then 2 else if x = 1 then 3 else if x = 2 then 0 else 1)

/-- Concrete lattice: 2 dimensions, 2x2 sites, periodic. -/
def clat2 : lattice := ⟨2, 4, cnext, cnext⟩

/-- Concrete parameters: betasu2 = 1, vanishing triplet couplings. -/
def cparam : params := ⟨1, 0, 0⟩

/-- The SU(2) element (0,1,0,0) = i sigma1. -/
def flipLink : Fin 4 → ℝ := fun k =>
  match k with
  | 0 => 0
  | 1 => 1
  | 2 => 0
  | 3 => 0

/-- The SU(2) element (-1,0,0,0) = -I. -/
def negLink : Fin 4 → ℝ := fun k =>
  match k with
  | 0 => -1
  | 1 => 0
  | 2 => 0
  | 3 => 0

/-- The adjoint triplet (0,0,1). -/
def trip001 : Fin 3 → ℝ := fun k =>
  match k with
  | 0 => 0
  | 1 => 0
  | 2 => 1

/-- Configuration A: every link the identity, every triplet zero. -/
def fA : fields := ⟨fun _ _ => idLink, fun _ _ => 0⟩

/-- Configuration B: as fA but the link at (site 0, direction 0) is (0,1,0,0). -/
def fB : fields := ⟨fun x d => if x = 0 ∧ d = 0 then flipLink else idLink, fun _ _ => 0⟩

/-- Configuration C: the link at (site 0, direction 0) is -I, every other
link the identity, every triplet (0,0,1). -/
def fC : fields := ⟨fun x d => if x = 0 ∧ d = 0 then negLink else idLink, fun _ => trip001⟩

/-- Configuration D: every link the identity, every triplet (0,0,1). -/
def fD : fields := ⟨fun _ _ => idLink, fun _ => trip001⟩

/-- The complex number whose argument alpha_proj extracts: the (1,1)+(2,2)
trace of the projected plaquette matrix. -/
def traceC (m : Fin 8 → ℝ) : ℂ := ⟨m 0 + m 6, m 1 + m 7⟩

/-- View of an 8-real projected link as a complex 2x2 matrix. -/
def toM (m : Fin 8 → ℝ) : Matrix (Fin 2) (Fin 2) ℂ :=
  !![⟨m 0, m 1⟩, ⟨m 2, m 3⟩; ⟨m 4, m 5⟩, ⟨m 6, m 7⟩]

/-- The 8-real matrix with (1,1) entry 1+i and all other entries zero. -/
def posP : Fin 8 → ℝ := fun k =>
  match k with
  | 0 => 1
  | 1 => 1
  | _ => 0

/-- The 8-real matrix with (1,1) entry -(1+i) and all other entries zero. -/
def negP : Fin 8 → ℝ := fun k =>
  match k with
  | 0 => -1
  | 1 => -1
  | _ => 0

/-- Modelled from the spec: the three-way Levi-Civita sign rule of
magnetic_field_component, +1 when dir < d1 < d2, -1 when d1 < dir < d2,
+1 when d1 < d2 < dir. -/
def eps_spec (dir d1 d2 : ℕ) : ℝ :=
  if dir < d1 ∧ d1 < d2 then 1
  else if d1 < dir ∧ dir < d2 then -1
  else if d1 < d2 ∧ d2 < dir then 1
  else 0

/-- Modelled from the spec: magnetic_field_component as the sum of the
projected-plaquette angle over all pairs d1 < d2 orthogonal to dir,
weighted by the Levi-Civita sign, each unordered pair visited once. -/
def magfield_spec (l : lattice) (p : params) (f : fields) (i : ℕ) (dir : ℕ) : ℝ :=
  ∑ d1 ∈ Finset.range l.dim, ∑ d2 ∈ Finset.range l.dim,
    if d1 < d2 ∧ d1 ≠ dir ∧ d2 ≠ dir then
      eps_spec dir d1 d2 * alpha_proj l p f i d1 d2
    else 0

/-- C2: for unit-norm SU(2) inputs, su2rot preserves the norm
u0^2+u1^2+u2^2+u3^2 = 1 exactly (in exact real arithmetic). -/
theorem su2rot_unitarity (u1 u2 : Fin 4 → ℝ)
    (h1 : su2sqr u1 = 1) (h2 : su2sqr u2 = 1) :
    su2sqr (su2rot u1 u2) = 1 := by
  have key : su2sqr (su2rot u1 u2) = su2sqr u1 * su2sqr u2 := by
    simp only [su2sqr, su2rot]; ring
  rw [key, h1, h2, mul_one]

/-- Witness for C2 at the identity link. -/
theorem su2rot_unitarity_witness :
    su2sqr idLink = 1 ∧ su2sqr (su2rot idLink idLink) = 1 :=
  ⟨by norm_num [su2sqr, idLink],
   su2rot_unitarity idLink idLink (by norm_num [su2sqr, idLink])
     (by norm_num [su2sqr, idLink])⟩

/-- C5: project_u1 writes, for each of the four complex entries, an
imaginary part identical to the real part: pro 1 = pro 0, pro 3 = pro 2,
pro 5 = pro 4, pro 7 = pro 6, for every input. -/
theorem project_u1_im_eq_re (l : lattice) (f : fields) (i : ℕ) (dir : ℕ) :
    project_u1 l f i dir 1 = project_u1 l f i dir 0
    ∧ project_u1 l f i dir 3 = project_u1 l f i dir 2
    ∧ project_u1 l f i dir 5 = project_u1 l f i dir 4
    ∧ project_u1 l f i dir 7 = project_u1 l f i dir 6 :=
  ⟨rfl, rfl, rfl, rfl⟩

/-- C10: the closed-form plaquette trace su2ptrace equals twice the first
component of the plaquette matrix built by su2plaquette from sequential
su2rot multiplications with explicit conjugation of the reversed legs. -/
theorem su2ptrace_eq_plaquette_trace (l : lattice) (f : fields) (i : ℕ)
    (dir1 dir2 : ℕ) :
    su2ptrace l f i dir1 dir2 = 2 * su2plaquette l f i dir1 dir2 0 := by
  simp only [su2ptrace, su2plaquette, su2trace4, su2rot, conjLink]
  ring

/-- C7: the Abelian projector returns 2*a_k/|a|, which has squared length 4
whenever the modulus |a| is nonzero. -/
theorem projector_unit_length (a : Fin 3 → ℝ)
    (h : Real.sqrt (a 0 * a 0 + a 1 * a 1 + a 2 * a 2) ≠ 0) :
    (∀ k, projector a k
        = 2 * a k / Real.sqrt (a 0 * a 0 + a 1 * a 1 + a 2 * a 2))
    ∧ projector a 0 * projector a 0 + projector a 1 * projector a 1
        + projector a 2 * projector a 2 = 4 := by
  have hs : 0 ≤ a 0 * a 0 + a 1 * a 1 + a 2 * a 2 := by
    have h0 := mul_self_nonneg (a 0)
    have h1 := mul_self_nonneg (a 1)
    have h2 := mul_self_nonneg (a 2)
    linarith
  have hm : Real.sqrt (a 0 * a 0 + a 1 * a 1 + a 2 * a 2)
      * Real.sqrt (a 0 * a 0 + a 1 * a 1 + a 2 * a 2)
      = a 0 * a 0 + a 1 * a 1 + a 2 * a 2 := Real.mul_self_sqrt hs
  have hs0 : a 0 * a 0 + a 1 * a 1 + a 2 * a 2 ≠ 0 := by
    intro hz
    exact h (by rw [hz, Real.sqrt_zero])
  constructor
  · intro k
    fin_cases k <;> (norm_num [projector]; try rfl)
  · simp only [projector]
    field_simp
    ring

/-- Witness for C7 at the triplet (1,0,0). -/
theorem projector_unit_length_witness :
    Real.sqrt (trip001 0 * trip001 0 + trip001 1 * trip001 1
        + trip001 2 * trip001 2) ≠ 0
    ∧ ((∀ k, projector trip001 k
        = 2 * trip001 k / Real.sqrt (trip001 0 * trip001 0
            + trip001 1 * trip001 1 + trip001 2 * trip001 2))
      ∧ projector trip001 0 * projector trip001 0
        + projector trip001 1 * projector trip001 1
        + projector trip001 2 * projector trip001 2 = 4) := by
  have h : Real.sqrt (trip001 0 * trip001 0 + trip001 1 * trip001 1
      + trip001 2 * trip001 2) ≠ 0 := by
    norm_num [trip001, Real.sqrt_one]
  exact ⟨h, projector_unit_length trip001 h⟩

/-- C9: the heap models of su2rot and matmat write only the first operand
buffer: when the two buffers are disjoint, every component of the second
operand is unchanged. -/
theorem su2rot_matmat_frame (h g : ℤ → ℝ) (u1 u2 in1 in2 : ℤ) (dag : Bool)
    (hd1 : ∀ k j : ℤ, 0 ≤ k → k < 4 → 0 ≤ j → j < 4 → u2 + k ≠ u1 + j)
    (hd2 : ∀ k j : ℤ, 0 ≤ k → k < 8 → 0 ≤ j → j < 8 → in2 + k ≠ in1 + j) :
    (∀ k : ℤ, 0 ≤ k → k < 4 → su2rotH h u1 u2 (u2 + k) = h (u2 + k))
    ∧ (∀ k : ℤ, 0 ≤ k → k < 8 → matmatH g in1 in2 dag (in2 + k) = g (in2 + k)) := by
  constructor
  · intro k hk0 hk4
    have n0 : u2 + k ≠ u1 + 0 := hd1 k 0 hk0 hk4 (by norm_num) (by norm_num)
    have n1 : u2 + k ≠ u1 + 1 := hd1 k 1 hk0 hk4 (by norm_num) (by norm_num)
    have n2 : u2 + k ≠ u1 + 2 := hd1 k 2 hk0 hk4 (by norm_num) (by norm_num)
    have n3 : u2 + k ≠ u1 + 3 := hd1 k 3 hk0 hk4 (by norm_num) (by norm_num)
    simp only [su2rotH]
    split_ifs <;> first | rfl | omega
  · intro k hk0 hk8
    have n0 : in2 + k ≠ in1 + 0 := hd2 k 0 hk0 hk8 (by norm_num) (by norm_num)
    have n1 : in2 + k ≠ in1 + 1 := hd2 k 1 hk0 hk8 (by norm_num) (by norm_num)
    have n2 : in2 + k ≠ in1 + 2 := hd2 k 2 hk0 hk8 (by norm_num) (by norm_num)
    have n3 : in2 + k ≠ in1 + 3 := hd2 k 3 hk0 hk8 (by norm_num) (by norm_num)
    have n4 : in2 + k ≠ in1 + 4 := hd2 k 4 hk0 hk8 (by norm_num) (by norm_num)
    have n5 : in2 + k ≠ in1 + 5 := hd2 k 5 hk0 hk8 (by norm_num) (by norm_num)
    have n6 : in2 + k ≠ in1 + 6 := hd2 k 6 hk0 hk8 (by norm_num) (by norm_num)
    have n7 : in2 + k ≠ in1 + 7 := hd2 k 7 hk0 hk8 (by norm_num) (by norm_num)
    simp only [matmatH]
    split_ifs <;> first | rfl | omega

/-- Witness for C9 with buffers at addresses 0 and 100 on the zero heap. -/
theorem su2rot_matmat_frame_witness :
    (∀ k j : ℤ, 0 ≤ k → k < 4 → 0 ≤ j → j < 4 → (100:ℤ) + k ≠ 0 + j)
    ∧ ((∀ k : ℤ, 0 ≤ k → k < 4 →
          su2rotH (fun _ => 0) 0 100 (100 + k) = (fun _ : ℤ => (0:ℝ)) (100 + k))
      ∧ (∀ k : ℤ, 0 ≤ k → k < 8 →
          matmatH (fun _ => 0) 0 100 true (100 + k) = (fun _ : ℤ => (0:ℝ)) (100 + k))) := by
  have hd1 : ∀ k j : ℤ, 0 ≤ k → k < 4 → 0 ≤ j → j < 4 → (100:ℤ) + k ≠ 0 + j := by
    intro k j hk0 hk hj0 hj; omega
  have hd2 : ∀ k j : ℤ, 0 ≤ k → k < 8 → 0 ≤ j → j < 8 → (100:ℤ) + k ≠ 0 + j := by
    intro k j hk0 hk hj0 hj; omega
  exact ⟨hd1, su2rot_matmat_frame (fun _ => 0) (fun _ => 0) 0 100 0 100 true hd1 hd2⟩

/-- C4: on an all-identity link configuration, every plaquette trace is
exactly 2 and the Wilson staple is 2(dim-1) times the identity, for any
lattice dimension at least 2. -/
theorem identity_plaquette_staple (l : lattice) (f : fields)
    (hid : ∀ x d, f.su2link x d = idLink) (hdim : 2 ≤ l.dim) :
    (∀ i d1 d2, d1 ≠ d2 → su2ptrace l f i d1 d2 = 2)
    ∧ (∀ i dir, dir < l.dim → ∀ k, su2staple_wilson l f i dir k
        = 2 * ((l.dim : ℝ) - 1) * idLink k) := by
  have htr : su2trace4 idLink idLink idLink idLink = 2 := by
    norm_num [su2trace4, idLink]
  constructor
  · intro i d1 d2 _
    simp only [su2ptrace, hid]
    exact htr
  · intro i dir hdir k
    have hterm : ∀ k : Fin 4, su2staple_counterwise idLink idLink idLink k
        + su2staple_clockwise idLink idLink idLink k = 2 * idLink k := by
      intro k
      fin_cases k <;>
        norm_num [su2staple_counterwise, su2staple_clockwise, idLink]
    have hcongr : ∀ j ∈ Finset.range l.dim,
        (if j ≠ dir then su2staple_counterwise idLink idLink idLink k
          + su2staple_clockwise idLink idLink idLink k else 0)
        = (if j ≠ dir then 2 * idLink k else 0) := by
      intro j _
      split_ifs
      · exact hterm k
      · rfl
    simp only [su2staple_wilson, hid]
    rw [Finset.sum_congr rfl hcongr, ← Finset.sum_filter, Finset.sum_const,
      Finset.filter_ne', Finset.card_erase_of_mem (Finset.mem_range.mpr hdir),
      Finset.card_range, nsmul_eq_mul, Nat.cast_sub (by omega)]
    push_cast
    ring

/-- Witness for C4 on the 2x2 lattice with all links the identity. -/
theorem identity_plaquette_staple_witness :
    ((∀ x d, fA.su2link x d = idLink) ∧ 2 ≤ clat2.dim)
    ∧ ((∀ i d1 d2, d1 ≠ d2 → su2ptrace clat2 fA i d1 d2 = 2)
      ∧ (∀ i dir, dir < clat2.dim → ∀ k, su2staple_wilson clat2 fA i dir k
          = 2 * ((clat2.dim : ℝ) - 1) * idLink k)) :=
  ⟨⟨fun _ _ => rfl, by norm_num [clat2]⟩,
   identity_plaquette_staple clat2 fA (fun _ _ => rfl) (by norm_num [clat2])⟩

/-- C6: magfield equals the spec-side Levi-Civita-weighted sum of
alpha_proj over the pairs d1 < d2 orthogonal to dir, with each unordered
pair visited exactly once and no extra factor of 2. -/
theorem magfield_eq_spec (l : lattice) (p : params) (f : fields)
    (i : ℕ) (dir : ℕ) :
    magfield l p f i dir = magfield_spec l p f i dir := by
  unfold magfield magfield_spec eps_spec
  apply Finset.sum_congr rfl
  intro d1 _
  by_cases h1 : d1 = dir
  · subst h1
    rw [if_pos rfl]
    symm
    apply Finset.sum_eq_zero
    intro d2 _
    simp
  · rw [if_neg h1]
    rw [show Finset.Ico (d1+1) l.dim
        = (Finset.range l.dim).filter (fun d2 => d1 < d2) from by
      ext x
      simp only [Finset.mem_Ico, Finset.mem_filter, Finset.mem_range]
      omega]
    rw [Finset.sum_filter]
    apply Finset.sum_congr rfl
    intro d2 _
    split_ifs <;> first | rfl | omega | ring

/-- C8: smearing an all-identity link configuration yields the identity
link at every site and direction, and smearing a zero triplet field yields
the zero triplet at every site, for any choice of smearing directions. -/
theorem smear_trivial_config (l : lattice) (f : fields) (sd : ℕ → Bool)
    (hid : ∀ x d, f.su2link x d = idLink)
    (h0 : ∀ x k, f.su2triplet x k = 0) :
    (∀ i dir k, smear_link l f sd i dir k = idLink k)
    ∧ (∀ i k, smear_triplet l f sd i k = 0) := by
  constructor
  · intro i dir k
    have honedir : ∀ x j, j ≠ dir → ∀ k : Fin 4,
        su2staple_wilson_onedir l f x dir j true k = 2 * idLink k := by
      intro x j hj k
      simp only [su2staple_wilson_onedir, hid]
      rw [if_neg (fun hh => hj hh.symm)]
      fin_cases k <;>
        norm_num [su2staple_counterwise, su2staple_clockwise, idLink]
    have hfun : ∀ x, (fun k : Fin 4 =>
        (f.su2link x dir k + ∑ j ∈ Finset.range l.dim,
          if j ≠ dir ∧ sd j then su2staple_wilson_onedir l f x dir j true k
          else 0) / ((smearPaths l sd dir : ℕ) : ℝ)) = idLink := by
      intro x
      funext k
      have hcongr : ∀ j ∈ Finset.range l.dim,
          (if j ≠ dir ∧ sd j then su2staple_wilson_onedir l f x dir j true k
            else 0)
          = (if j ≠ dir ∧ sd j then 2 * idLink k else 0) := by
        intro j _
        split_ifs with hj
        · exact honedir x j hj.1 k
        · rfl
      rw [hid, Finset.sum_congr rfl hcongr, ← Finset.sum_filter,
        Finset.sum_const, nsmul_eq_mul]
      have hpaths : ((smearPaths l sd dir : ℕ) : ℝ)
          = 1 + 2 * (((Finset.range l.dim).filter
              (fun j => j ≠ dir ∧ sd j)).card : ℝ) := by
        unfold smearPaths
        push_cast
        ring
      rw [hpaths]
      have hk : idLink k + (((Finset.range l.dim).filter
          (fun j => j ≠ dir ∧ sd j)).card : ℝ) * (2 * idLink k)
          = (1 + 2 * (((Finset.range l.dim).filter
              (fun j => j ≠ dir ∧ sd j)).card : ℝ)) * idLink k := by ring
      rw [hk]
      have hne : (1 + 2 * (((Finset.range l.dim).filter
          (fun j => j ≠ dir ∧ sd j)).card : ℝ)) ≠ 0 := by positivity
      rw [mul_comm, mul_div_assoc, div_self hne, mul_one]
    have hrot : su2rot idLink idLink = idLink := by
      funext k
      fin_cases k <;> norm_num [su2rot, idLink]
    simp only [smear_link]
    rw [hfun i, hfun (l.next i dir), hrot]
    have hdet : Real.sqrt (su2sqr idLink) = 1 := by
      norm_num [su2sqr, idLink]
    rw [hdet, div_one]
  · intro i k
    fin_cases k <;>
      simp [smear_triplet, smearCovForward, smearCovBackward, h0]

/-- Witness for C8 on the 2x2 lattice with identity links, zero triplets
and all directions smeared. -/
theorem smear_trivial_config_witness :
    ((∀ x d, fA.su2link x d = idLink) ∧ (∀ x k, fA.su2triplet x k = 0))
    ∧ ((∀ i dir k, smear_link clat2 fA (fun _ => true) i dir k = idLink k)
      ∧ (∀ i k, smear_triplet clat2 fA (fun _ => true) i k = 0)) :=
  ⟨⟨fun _ _ => rfl, fun _ _ => rfl⟩,
   smear_trivial_config clat2 fA (fun _ => true) (fun _ _ => rfl)
     (fun _ _ => rfl)⟩

lemma toM_matmat (a b : Fin 8 → ℝ) (dag : Bool) :
    toM (matmat a b dag) = toM a * (if dag then (toM b)ᴴ else toM b) := by
  cases dag <;>
  · ext i j
    fin_cases i <;> fin_cases j <;>
      · apply Complex.ext <;>
          simp [toM, matmat, Matrix.mul_apply, Fin.sum_univ_two,
            Matrix.conjTranspose_apply, Complex.mul_re, Complex.mul_im] <;>
          ring

lemma traceC_toM (m : Fin 8 → ℝ) : traceC m = Matrix.trace (toM m) := by
  apply Complex.ext <;>
    simp [traceC, toM, Matrix.trace, Matrix.diag, Fin.sum_univ_two]

lemma alphaplaq_swap (l : lattice) (f : fields) (i : ℕ) (d1 d2 : ℕ) :
    toM (alphaplaq l f i d2 d1) = (toM (alphaplaq l f i d1 d2))ᴴ := by
  simp only [alphaplaq, toM_matmat, if_true, if_false, Bool.false_eq_true]
  simp [Matrix.conjTranspose_mul, Matrix.conjTranspose_conjTranspose,
    mul_assoc]

lemma alpha_proj_arg (l : lattice) (p : params) (f : fields) (i : ℕ)
    (d1 d2 : ℕ) :
    alpha_proj l p f i d1 d2
      = Real.sqrt p.betasu2 * Complex.arg (traceC (alphaplaq l f i d1 d2)) :=
  rfl

/-- C3 (amended): the projected Abelian plaquette angle is antisymmetric
under swapping the two directions whenever the complex trace of the
projected plaquette does not lie on the branch cut of the complex phase
(argument equal to pi, i.e. the closed negative real axis). -/
theorem alpha_proj_antisym_amended (l : lattice) (p : params) (f : fields)
    (i : ℕ) (d1 d2 : ℕ) (hd : d1 ≠ d2)
    (hmod : ∀ x, f.su2triplet x 0 * f.su2triplet x 0
        + f.su2triplet x 1 * f.su2triplet x 1
        + f.su2triplet x 2 * f.su2triplet x 2 ≠ 0)
    (hbranch : Complex.arg (traceC (alphaplaq l f i d1 d2)) ≠ Real.pi) :
    alpha_proj l p f i d1 d2 = -(alpha_proj l p f i d2 d1) := by
  have h1 : traceC (alphaplaq l f i d2 d1)
      = conj (traceC (alphaplaq l f i d1 d2)) := by
    rw [traceC_toM, traceC_toM, alphaplaq_swap, Matrix.trace_conjTranspose,
      ← Complex.star_def]
  have h2 : Complex.arg (traceC (alphaplaq l f i d2 d1))
      = -(Complex.arg (traceC (alphaplaq l f i d1 d2))) := by
    rw [h1, Complex.arg_conj, if_neg hbranch]
  rw [alpha_proj_arg, alpha_proj_arg, h2]
  ring

lemma projC00 : project_u1 clat2 fC 0 0 = negP := by
  funext k
  fin_cases k <;>
    norm_num [project_u1, projector, clat2, cnext, fC, trip001, negLink,
      negP, Real.sqrt_one]

lemma projC11 : project_u1 clat2 fC 1 1 = posP := by
  funext k
  fin_cases k <;>
    norm_num [project_u1, projector, clat2, cnext, fC, trip001, idLink,
      posP, Real.sqrt_one]

lemma projC20 : project_u1 clat2 fC 2 0 = posP := by
  funext k
  fin_cases k <;>
    norm_num [project_u1, projector, clat2, cnext, fC, trip001, idLink,
      posP, Real.sqrt_one]

lemma projC01 : project_u1 clat2 fC 0 1 = posP := by
  funext k
  fin_cases k <;>
    norm_num [project_u1, projector, clat2, cnext, fC, trip001, idLink,
      posP, Real.sqrt_one]

lemma alphaplaqC01 : alphaplaq clat2 fC 0 0 1
    = matmat (matmat (matmat negP posP false) posP true) posP true := by
  simp only [alphaplaq]
  rw [show clat2.next 0 0 = 1 from rfl, show clat2.next 0 1 = 2 from rfl]
  rw [projC00, projC11, projC20, projC01]

lemma alphaplaqC10 : alphaplaq clat2 fC 0 1 0
    = matmat (matmat (matmat posP posP false) posP true) negP true := by
  simp only [alphaplaq]
  rw [show clat2.next 0 1 = 2 from rfl, show clat2.next 0 0 = 1 from rfl]
  rw [projC00, projC11, projC20, projC01]

lemma argNegFour : Complex.arg ⟨-4, 0⟩ = Real.pi := by
  rw [show ((⟨-4, 0⟩ : ℂ)) = ((-4 : ℝ) : ℂ) from
    Complex.ext (by simp) (by simp)]
  exact Complex.arg_ofReal_of_neg (by norm_num)

lemma traceC_chainC01 : traceC (matmat (matmat (matmat negP posP false)
    posP true) posP true) = ⟨-4, 0⟩ := by
  apply Complex.ext <;> norm_num [traceC, matmat, posP, negP]

lemma traceC_chainC10 : traceC (matmat (matmat (matmat posP posP false)
    posP true) negP true) = ⟨-4, 0⟩ := by
  apply Complex.ext <;> norm_num [traceC, matmat, posP, negP]

/-- Counterexample for C3: on the 2x2 periodic lattice with all triplets
(0,0,1) (nonzero modulus everywhere), betasu2 = 1, and the single link
(site 0, direction 0) set to -I, both orderings of the projected plaquette
angle evaluate on the atan2 branch cut and return pi, so the angle is not
antisymmetric under swapping the directions. -/
theorem alpha_proj_antisym_cex :
    (∀ x, fC.su2triplet x 0 * fC.su2triplet x 0
        + fC.su2triplet x 1 * fC.su2triplet x 1
        + fC.su2triplet x 2 * fC.su2triplet x 2 ≠ 0)
    ∧ (0 : ℕ) ≠ 1
    ∧ alpha_proj clat2 cparam fC 0 0 1 ≠ -(alpha_proj clat2 cparam fC 0 1 0) := by
  refine ⟨?_, by norm_num, ?_⟩
  · intro x
    norm_num [fC, trip001]
  · have hA : alpha_proj clat2 cparam fC 0 0 1 = Real.pi := by
      rw [alpha_proj_arg, alphaplaqC01, traceC_chainC01, argNegFour]
      norm_num [cparam, Real.sqrt_one]
    have hB : alpha_proj clat2 cparam fC 0 1 0 = Real.pi := by
      rw [alpha_proj_arg, alphaplaqC10, traceC_chainC10, argNegFour]
      norm_num [cparam, Real.sqrt_one]
    rw [hA, hB]
    intro h
    have hpi := Real.pi_pos
    linarith

lemma projD : ∀ x d, project_u1 clat2 fD x d = posP := by
  intro x d
  funext k
  fin_cases k <;>
    norm_num [project_u1, projector, fD, trip001, idLink, posP,
      Real.sqrt_one]

lemma traceC_chainD : traceC (matmat (matmat (matmat posP posP false)
    posP true) posP true) = ⟨4, 0⟩ := by
  apply Complex.ext <;> norm_num [traceC, matmat, posP]

lemma argD : Complex.arg (traceC (alphaplaq clat2 fD 0 0 1)) = 0 := by
  have h : alphaplaq clat2 fD 0 0 1
      = matmat (matmat (matmat posP posP false) posP true) posP true := by
    simp only [alphaplaq]
    rw [projD, projD, projD, projD]
  rw [h, traceC_chainD]
  rw [show ((⟨4, 0⟩ : ℂ)) = ((4 : ℝ) : ℂ) from
    Complex.ext (by simp) (by simp)]
  exact Complex.arg_ofReal_of_nonneg (by norm_num)

/-- Witness for C3 (amended) on the 2x2 lattice with identity links and
triplets (0,0,1): the projected plaquette trace is 4, away from the branch
cut, and both orderings of the angle negate each other. -/
theorem alpha_proj_antisym_amended_witness :
    ((0 : ℕ) ≠ 1
      ∧ (∀ x, fD.su2triplet x 0 * fD.su2triplet x 0
          + fD.su2triplet x 1 * fD.su2triplet x 1
          + fD.su2triplet x 2 * fD.su2triplet x 2 ≠ 0)
      ∧ Complex.arg (traceC (alphaplaq clat2 fD 0 0 1)) ≠ Real.pi)
    ∧ alpha_proj clat2 cparam fD 0 0 1 = -(alpha_proj clat2 cparam fD 0 1 0) := by
  have hmod : ∀ x, fD.su2triplet x 0 * fD.su2triplet x 0
      + fD.su2triplet x 1 * fD.su2triplet x 1
      + fD.su2triplet x 2 * fD.su2triplet x 2 ≠ 0 := by
    intro x
    norm_num [fD, trip001]
  have hbranch : Complex.arg (traceC (alphaplaq clat2 fD 0 0 1)) ≠ Real.pi := by
    rw [argD]
    exact fun h => Real.pi_ne_zero h.symm
  exact ⟨⟨by norm_num, hmod, hbranch⟩,
    alpha_proj_antisym_amended clat2 cparam fD 0 0 1 (by norm_num) hmod hbranch⟩

lemma actA0 : action_local clat2 fA cparam 0 = 0 := by
  norm_num [action_local, local_su2wilson, higgspotential, covariant_triplet,
    hopping_triplet_forward, hopping_trace_triplet, tripletsq, su2ptrace,
    su2trace4, fA, cparam, idLink, clat2, cnext, Finset.sum_range_succ,
    Finset.sum_range_zero]

lemma actA1 : action_local clat2 fA cparam 1 = 0 := by
  norm_num [action_local, local_su2wilson, higgspotential, covariant_triplet,
    hopping_triplet_forward, hopping_trace_triplet, tripletsq, su2ptrace,
    su2trace4, fA, cparam, idLink, clat2, cnext, Finset.sum_range_succ,
    Finset.sum_range_zero]

lemma actB0 : action_local clat2 fB cparam 0 = 1 := by
  norm_num [action_local, local_su2wilson, higgspotential, covariant_triplet,
    hopping_triplet_forward, hopping_trace_triplet, tripletsq, su2ptrace,
    su2trace4, fB, cparam, idLink, flipLink, clat2, cnext,
    Finset.sum_range_succ, Finset.sum_range_zero]

lemma actB1 : action_local clat2 fB cparam 1 = 0 := by
  norm_num [action_local, local_su2wilson, higgspotential, covariant_triplet,
    hopping_triplet_forward, hopping_trace_triplet, tripletsq, su2ptrace,
    su2trace4, fB, cparam, idLink, flipLink, clat2, cnext,
    Finset.sum_range_succ, Finset.sum_range_zero]

lemma locactA00 : localact_su2link clat2 fA cparam 0 0 = 0 := by
  norm_num [localact_su2link, hopping_triplet_forward, hopping_trace_triplet,
    su2ptrace, su2trace4, fA, cparam, idLink, clat2, cnext,
    Finset.sum_range_succ, Finset.sum_range_zero]

lemma locactB00 : localact_su2link clat2 fB cparam 0 0 = 2 := by
  norm_num [localact_su2link, hopping_triplet_forward, hopping_trace_triplet,
    su2ptrace, su2trace4, fB, cparam, idLink, flipLink, clat2, cnext,
    Finset.sum_range_succ, Finset.sum_range_zero]

/-- Counterexample for C1: on the 2x2 periodic lattice with betasu2 = 1,
changing the single link (site 0, direction 0) from the identity to
(0,1,0,0) changes localact_su2link by 2, but re-summing action_local over
the two endpoint sites 0 and next[0][0] = 1 of the changed link only
changes by 1: the endpoint re-sum does not capture the difference
(the affected second site is the backward neighbor, not the forward one). -/
theorem localact_endpoint_resum_cex :
    clat2.next 0 0 = 1
    ∧ (∀ x d, ¬(x = 0 ∧ d = 0) → fB.su2link x d = fA.su2link x d)
    ∧ (∀ x, fB.su2triplet x = fA.su2triplet x)
    ∧ (action_local clat2 fB cparam 0 + action_local clat2 fB cparam 1)
        - (action_local clat2 fA cparam 0 + action_local clat2 fA cparam 1)
      ≠ localact_su2link clat2 fB cparam 0 0
        - localact_su2link clat2 fA cparam 0 0 := by
  refine ⟨rfl, ?_, fun _ => rfl, ?_⟩
  · intro x d h
    simp [fA, fB, if_neg h]
  · rw [actA0, actA1, actB0, actB1, locactA00, locactB00]
    norm_num

lemma su2trace4_rev (a b c d : Fin 4 → ℝ) :
    su2trace4 a b c d = su2trace4 d c b a := by
  simp only [su2trace4]
  ring

lemma su2ptrace_symm (l : lattice) (f : fields) (x : ℕ) (a b : ℕ) :
    su2ptrace l f x a b = su2ptrace l f x b a := by
  simp only [su2ptrace]
  exact su2trace4_rev _ _ _ _

lemma sum_pairs_dir (n dir : ℕ) (hdir : dir < n) (g : ℕ → ℕ → ℝ)
    (hsymm : ∀ a b, g a b = g b a)
    (hnull : ∀ a b, a ≠ dir → b ≠ dir → g a b = 0) :
    ∑ d1 ∈ Finset.range n, ∑ d2 ∈ Finset.range d1, g d2 d1
      = ∑ d2 ∈ Finset.range n, if d2 ≠ dir then g dir d2 else 0 := by
  induction n with
  | zero => omega
  | succ m ih =>
    rw [Finset.sum_range_succ, Finset.sum_range_succ]
    by_cases hm : dir = m
    · subst hm
      have hz : ∑ d1 ∈ Finset.range dir, ∑ d2 ∈ Finset.range d1, g d2 d1
          = 0 := by
        apply Finset.sum_eq_zero
        intro d1 h1
        apply Finset.sum_eq_zero
        intro d2 h2
        exact hnull d2 d1 (by simp only [Finset.mem_range] at h1 h2; omega)
          (by simp only [Finset.mem_range] at h1; omega)
      rw [hz, zero_add, if_neg (by simp), add_zero]
      apply Finset.sum_congr rfl
      intro d2 hd2
      rw [if_pos (by simp only [Finset.mem_range] at hd2; omega), hsymm]
    · have hdir2 : dir < m := by omega
      rw [ih hdir2]
      congr 1
      rw [if_pos (fun h => hm h.symm)]
      apply Finset.sum_eq_single dir
      · intro b hb hbd
        exact hnull b m hbd (fun h => hm h.symm)
      · intro habs
        exact absurd (Finset.mem_range.mpr hdir2) habs

/-- C1 (amended): for two configurations differing only in the link at
(site i, direction dir), the difference of localact_su2link equals the
difference of the total action (the sum of action_local over all sites);
the total-action difference is captured by re-summing action_local at
site i together with its backward neighbors prev[i][d2] for d2 ≠ dir
(action_local is unchanged at every other site, in particular at the
forward endpoint next[i][dir]). -/
theorem localact_link_total_action_diff
    (l : lattice) (p : params) (f f' : fields) (i : ℕ) (dir : ℕ)
    (hi : i < l.vol) (hdir : dir < l.dim)
    (hprevmem : ∀ d, d < l.dim → l.prev i d < l.vol)
    (hpn : ∀ x, x < l.vol → ∀ d, d < l.dim → l.prev (l.next x d) d = x)
    (hone : ∀ d, d < l.dim → d ≠ dir → l.prev i d ≠ i)
    (hlink : ∀ x d, ¬(x = i ∧ d = dir) → f'.su2link x d = f.su2link x d)
    (htrip : ∀ x, f'.su2triplet x = f.su2triplet x) :
    ((∑ x ∈ Finset.range l.vol, action_local l f' p x)
        - ∑ x ∈ Finset.range l.vol, action_local l f p x
      = localact_su2link l f' p i dir - localact_su2link l f p i dir)
    ∧ (∀ x, x < l.vol → x ≠ i →
        (∀ d, d < l.dim → d ≠ dir → x ≠ l.prev i d) →
        action_local l f' p x = action_local l f p x) := by
  have hlink2 : ∀ x d, (x ≠ i ∨ d ≠ dir) → f'.su2link x d = f.su2link x d := by
    intro x d h
    exact hlink x d (by tauto)
  have hpt_eq : ∀ x a b, (x ≠ i ∨ a ≠ dir) → (l.next x a ≠ i ∨ b ≠ dir) →
      (l.next x b ≠ i ∨ a ≠ dir) → (x ≠ i ∨ b ≠ dir) →
      su2ptrace l f' x a b = su2ptrace l f x a b := by
    intro x a b h1 h2 h3 h4
    simp only [su2ptrace]
    rw [hlink2 x a h1, hlink2 (l.next x a) b h2, hlink2 (l.next x b) a h3,
      hlink2 x b h4]
  have hD_offdir : ∀ x a b, a ≠ dir → b ≠ dir →
      su2ptrace l f' x a b = su2ptrace l f x a b := by
    intro x a b ha hb
    exact hpt_eq x a b (Or.inr ha) (Or.inr hb) (Or.inr ha) (Or.inr hb)
  have hD_dir : ∀ x b, x < l.vol → b < l.dim → b ≠ dir → x ≠ i →
      x ≠ l.prev i b → su2ptrace l f' x dir b = su2ptrace l f x dir b := by
    intro x b hxv hbd hb hxi hxp
    refine hpt_eq x dir b (Or.inl hxi) (Or.inr hb) ?_ (Or.inr hb)
    left
    intro hnb
    exact hxp (by rw [← hnb, hpn x hxv b hbd])
  have hW_eq : ∀ x, x < l.vol → x ≠ i →
      (∀ d, d < l.dim → d ≠ dir → x ≠ l.prev i d) →
      local_su2wilson l f' p x = local_su2wilson l f p x := by
    intro x hxv hxi hxp
    unfold local_su2wilson
    congr 1
    apply Finset.sum_congr rfl
    intro d1 hd1
    apply Finset.sum_congr rfl
    intro d2 hd2
    simp only [Finset.mem_range] at hd1 hd2
    have hpt : su2ptrace l f' x d2 d1 = su2ptrace l f x d2 d1 := by
      by_cases hc1 : d2 = dir
      · subst hc1
        exact hD_dir x d1 hxv (by omega) (by omega) hxi
          (hxp d1 (by omega) (by omega))
      · by_cases hc2 : d1 = dir
        · rw [hc2, su2ptrace_symm l f' x d2 dir, su2ptrace_symm l f x d2 dir]
          exact hD_dir x d2 hxv (by omega) hc1 hxi (hxp d2 (by omega) hc1)
        · exact hD_offdir x d2 d1 hc1 hc2
    rw [hpt]
  have hcov_eq : ∀ x, x ≠ i →
      covariant_triplet l f' p x = covariant_triplet l f p x := by
    intro x hxi
    unfold covariant_triplet hopping_triplet_forward
    apply Finset.sum_congr rfl
    intro d _
    rw [htrip x, htrip (l.next x d), hlink2 x d (Or.inl hxi)]
  have hpot_eq : ∀ x, higgspotential f' p x = higgspotential f p x := by
    intro x
    unfold higgspotential
    rw [htrip x]
  have hB : ∀ x, x < l.vol → x ≠ i →
      (∀ d, d < l.dim → d ≠ dir → x ≠ l.prev i d) →
      action_local l f' p x = action_local l f p x := by
    intro x hxv hxi hxp
    unfold action_local
    rw [hW_eq x hxv hxi hxp, hcov_eq x hxi, hpot_eq x]
  refine ⟨?_, hB⟩
  rw [← Finset.sum_sub_distrib]
  have hsplit : ∀ x ∈ Finset.range l.vol,
      action_local l f' p x - action_local l f p x
      = (local_su2wilson l f' p x - local_su2wilson l f p x)
        + (covariant_triplet l f' p x - covariant_triplet l f p x) := by
    intro x _
    unfold action_local
    rw [hpot_eq x]
    ring
  rw [Finset.sum_congr rfl hsplit, Finset.sum_add_distrib]
  have hcovsum : ∑ x ∈ Finset.range l.vol,
      (covariant_triplet l f' p x - covariant_triplet l f p x)
      = hopping_triplet_forward l f' p i dir
        - hopping_triplet_forward l f p i dir := by
    rw [Finset.sum_eq_single i]
    · unfold covariant_triplet
      rw [← Finset.sum_sub_distrib]
      rw [Finset.sum_eq_single dir]
      · rw [htrip i]
        ring
      · intro b hb hbd
        have hhop : hopping_triplet_forward l f' p i b
            = hopping_triplet_forward l f p i b := by
          unfold hopping_triplet_forward
          rw [htrip i, htrip (l.next i b), hlink2 i b (Or.inr hbd)]
        rw [htrip i, hhop]
        ring
      · intro habs
        exact absurd (Finset.mem_range.mpr hdir) habs
    · intro x _ hxi
      rw [hcov_eq x hxi]
      ring
    · intro habs
      exact absurd (Finset.mem_range.mpr hi) habs
  have hWx : ∀ x ∈ Finset.range l.vol,
      local_su2wilson l f' p x - local_su2wilson l f p x
      = p.betasu2 * ∑ d1 ∈ Finset.range l.dim, ∑ d2 ∈ Finset.range d1,
          (-0.5) * (su2ptrace l f' x d2 d1 - su2ptrace l f x d2 d1) := by
    intro x _
    unfold local_su2wilson
    rw [← mul_sub]
    congr 1
    rw [← Finset.sum_sub_distrib]
    apply Finset.sum_congr rfl
    intro d1 _
    rw [← Finset.sum_sub_distrib]
    apply Finset.sum_congr rfl
    intro d2 _
    ring
  have hpairs : ∀ x ∈ Finset.range l.vol,
      p.betasu2 * ∑ d1 ∈ Finset.range l.dim, ∑ d2 ∈ Finset.range d1,
          (-0.5) * (su2ptrace l f' x d2 d1 - su2ptrace l f x d2 d1)
      = p.betasu2 * ∑ d2 ∈ Finset.range l.dim,
          (if d2 ≠ dir then
            (-0.5) * (su2ptrace l f' x dir d2 - su2ptrace l f x dir d2)
          else 0) := by
    intro x _
    congr 1
    apply sum_pairs_dir l.dim dir hdir
    · intro a b
      rw [su2ptrace_symm l f' x a b, su2ptrace_symm l f x a b]
    · intro a b ha hb
      rw [hD_offdir x a b ha hb]
      ring
  rw [Finset.sum_congr rfl hWx, Finset.sum_congr rfl hpairs, hcovsum]
  rw [← Finset.mul_sum, Finset.sum_comm]
  have hinner : ∀ d2 ∈ Finset.range l.dim,
      ∑ x ∈ Finset.range l.vol,
        (if d2 ≠ dir then
          (-0.5) * (su2ptrace l f' x dir d2 - su2ptrace l f x dir d2)
        else 0)
      = (if d2 ≠ dir then
          (-0.5) * (su2ptrace l f' i dir d2 - su2ptrace l f i dir d2)
          + (-0.5) * (su2ptrace l f' (l.prev i d2) dir d2
              - su2ptrace l f (l.prev i d2) dir d2)
        else 0) := by
    intro d2 hd2
    simp only [Finset.mem_range] at hd2
    by_cases hcd : d2 = dir
    · subst hcd
      simp
    · rw [if_pos hcd]
      have hstep : ∀ x ∈ Finset.range l.vol,
          (if d2 ≠ dir then
            (-0.5) * (su2ptrace l f' x dir d2 - su2ptrace l f x dir d2)
          else 0)
          = (-0.5) * (su2ptrace l f' x dir d2 - su2ptrace l f x dir d2) := by
        intro x _
        rw [if_pos hcd]
      rw [Finset.sum_congr rfl hstep]
      have hsub : ({i, l.prev i d2} : Finset ℕ) ⊆ Finset.range l.vol := by
        intro x hx
        simp only [Finset.mem_insert, Finset.mem_singleton] at hx
        rcases hx with h | h <;> subst h
        · exact Finset.mem_range.mpr hi
        · exact Finset.mem_range.mpr (hprevmem d2 hd2)
      rw [← Finset.sum_subset hsub]
      · rw [Finset.sum_pair (fun h => hone d2 hd2 hcd h.symm)]
      · intro x hxmem hx
        simp only [Finset.mem_insert, Finset.mem_singleton, not_or] at hx
        rw [hD_dir x d2 (Finset.mem_range.mp hxmem) hd2 hcd hx.1 hx.2]
        ring
  rw [Finset.sum_congr rfl hinner]
  unfold localact_su2link
  have hdiff : ∑ d2 ∈ Finset.range l.dim,
      (if d2 ≠ dir then
        (-0.5) * (su2ptrace l f' i dir d2 - su2ptrace l f i dir d2)
        + (-0.5) * (su2ptrace l f' (l.prev i d2) dir d2
            - su2ptrace l f (l.prev i d2) dir d2)
      else 0)
      = (∑ d2 ∈ Finset.range l.dim,
          if d2 ≠ dir then
            (1.0 - 0.5 * su2ptrace l f' i dir d2)
            + (1.0 - 0.5 * su2ptrace l f' (l.prev i d2) dir d2)
          else 0)
        - (∑ d2 ∈ Finset.range l.dim,
          if d2 ≠ dir then
            (1.0 - 0.5 * su2ptrace l f i dir d2)
            + (1.0 - 0.5 * su2ptrace l f (l.prev i d2) dir d2)
          else 0) := by
    rw [← Finset.sum_sub_distrib]
    apply Finset.sum_congr rfl
    intro d2 _
    split_ifs
    · ring
    · ring
  rw [hdiff]
  ring

/-- Witness for C1 (amended) on the 2x2 lattice: changing the single link
(site 0, direction 0) from fA to fB. -/
theorem localact_link_total_action_diff_witness :
    ((0 : ℕ) < clat2.vol ∧ (0 : ℕ) < clat2.dim
      ∧ (∀ x, x < clat2.vol → ∀ d, d < clat2.dim →
          clat2.prev (clat2.next x d) d = x)
      ∧ (∀ x d, ¬(x = 0 ∧ d = 0) → fB.su2link x d = fA.su2link x d))
    ∧ (((∑ x ∈ Finset.range clat2.vol, action_local clat2 fB cparam x)
          - ∑ x ∈ Finset.range clat2.vol, action_local clat2 fA cparam x
        = localact_su2link clat2 fB cparam 0 0
          - localact_su2link clat2 fA cparam 0 0)
      ∧ (∀ x, x < clat2.vol → x ≠ 0 →
          (∀ d, d < clat2.dim → d ≠ 0 → x ≠ clat2.prev 0 d) →
          action_local clat2 fB cparam x = action_local clat2 fA cparam x)) := by
  have hpn : ∀ x, x < clat2.vol → ∀ d, d < clat2.dim →
      clat2.prev (clat2.next x d) d = x := by
    intro x hx d hd
    simp only [clat2] at hx hd ⊢
    interval_cases x <;> interval_cases d <;> rfl
  have hlink : ∀ x d, ¬(x = 0 ∧ d = 0) → fB.su2link x d = fA.su2link x d := by
    intro x d h
    simp [fA, fB, if_neg h]
  have hprevmem : ∀ d, d < clat2.dim → clat2.prev 0 d < clat2.vol := by
    intro d hd
    simp only [clat2] at hd ⊢
    interval_cases d <;> norm_num [cnext]
  have hone : ∀ d, d < clat2.dim → d ≠ 0 → clat2.prev 0 d ≠ 0 := by
    intro d hd hd0
    simp only [clat2] at hd ⊢
    interval_cases d
    · exact absurd rfl hd0
    · norm_num [cnext]
  exact ⟨⟨by norm_num [clat2], by norm_num [clat2], hpn, hlink⟩,
    localact_link_total_action_diff clat2 cparam fA fB 0 0
      (by norm_num [clat2]) (by norm_num [clat2]) hprevmem hpn hone hlink
      (fun _ => rfl)⟩
